import Mathlib

/-!
Verification of the core of `linguist-color-checker` (src/main.go).

The Go program reads a map from language name to hex color string, converts
each color hex → RGB → CIE XYZ → CIELAB, computes the CIE94 delta-E between
all pairs, sorts each language's differences ascending, and prints the
entries below a threshold.

Modelling conventions:
* Go `float64` arithmetic is modelled by exact real arithmetic (`ℝ`);
  `math.Sqrt` is `Real.sqrt` and `math.Pow` is `Real.rpow`.
* Go `uint8` channel values are modelled by `Nat` (hex decoding only ever
  produces values below 256).
* Go strings are modelled through their character lists; `s[1:]` on a
  7-character string is `s.data.drop 1`.
* `encoding/hex.DecodeString` is modelled by `decodeHex`: it succeeds
  exactly on even-length strings of hexadecimal digits (Go accepts digits,
  lowercase and uppercase letters), producing one byte per digit pair.
* Go's multiple return `(RGB, error)` is modelled as `RGB × Option HexError`;
  the zero value `RGB{}` is `⟨0, 0, 0⟩`.
* `sort.Slice(diffs, less)` with `less i j := diffs[i].Diff < diffs[j].Diff`
  guarantees a reordering that is nondecreasing in `Diff`; it is modelled by
  `List.insertionSort` on the reflexive closure of that comparison, which has
  the same contract (a sorted permutation; tie order is not specified).
* Go map iteration (over `languages`) has unspecified order; the map is
  modelled as an association list with `Nodup` keys.
-/

namespace LinguistColor

/-- RGB color: three 8-bit channels (src/main.go `type RGB struct`). -/
structure RGB where
  R : Nat
  G : Nat
  B : Nat
deriving DecidableEq, Repr

/-- CIE XYZ tristimulus values (src/main.go `type XYZ struct`). -/
structure XYZ where
  X : ℝ
  Y : ℝ
  Z : ℝ

/-- CIELAB color (src/main.go `type LAB struct`). -/
structure LAB where
  L : ℝ
  A : ℝ
  B : ℝ

/-- The distinct error outcomes of `HexToRGB` in src/main.go:
`invalidFormat` for "expected hex color of form: #RRGGBB" (length ≠ 7),
`invalidHex` for a `hex.DecodeString` failure, and
`invalidLength` for "decoded hex length != 3". -/
inductive HexError where
  | invalidFormat
  | invalidHex
  | invalidLength
deriving DecidableEq, Repr

/-- Value of a single hex digit, as accepted by Go's `hex.DecodeString`
(`fromHexChar`): `0-9`, `a-f`, `A-F`. -/
def hexDigit? (c : Char) : Option Nat :=
  if '0' ≤ c ∧ c ≤ '9' then some (c.toNat - '0'.toNat)
  else if 'a' ≤ c ∧ c ≤ 'f' then some (c.toNat - 'a'.toNat + 10)
  else if 'A' ≤ c ∧ c ≤ 'F' then some (c.toNat - 'A'.toNat + 10)
  else none

/-- Go's `hex.DecodeString` on a character list: decodes consecutive pairs
of hex digits into bytes, failing on a non-digit or an odd length. -/
def decodeHex : List Char → Option (List Nat)
  | [] => some []
  | [_] => none
  | c1 :: c2 :: rest =>
    match hexDigit? c1, hexDigit? c2 with
    | some hi, some lo => (decodeHex rest).map (fun r => (16 * hi + lo) :: r)
    | _, _ => none

/-- src/main.go `HexToRGB`: checks the length is 7, hex-decodes `s[1:]`,
checks the decoded length is 3, and returns the three bytes. On error the
Go function returns the zero value `RGB{}` together with the error. -/
def HexToRGB (s : String) : RGB × Option HexError :=
  if s.length ≠ 7 then (⟨0, 0, 0⟩, some .invalidFormat)
  else
    match decodeHex (s.data.drop 1) with
    | none => (⟨0, 0, 0⟩, some .invalidHex)
    | some [r0, g0, b0] => (⟨r0, g0, b0⟩, none)
    | some _ => (⟨0, 0, 0⟩, some .invalidLength)

noncomputable section

/-- src/main.go: the local closure `Norm` of `RGBToXYZ` (sRGB inverse gamma). -/
def NormRGB (n : ℝ) : ℝ :=
  if n > 0.04045 then ((n + 0.055) / 1.055) ^ (2.4 : ℝ) else n / 12.92

/-- src/main.go `RGBToXYZ`: normalize each channel to [0,1], gamma-expand,
scale by 100, then apply the fixed sRGB matrix. -/
def RGBToXYZ (c : RGB) : XYZ :=
  let vR := NormRGB ((c.R : ℝ) / 255) * 100
  let vG := NormRGB ((c.G : ℝ) / 255) * 100
  let vB := NormRGB ((c.B : ℝ) / 255) * 100
  { X := vR * 0.4124 + vG * 0.3576 + vB * 0.1805
    Y := vR * 0.2126 + vG * 0.7152 + vB * 0.0722
    Z := vR * 0.0193 + vG * 0.1192 + vB * 0.9505 }

/-- src/main.go `rX`: reference white X (CIE 1964 10° observer, illuminant F5). -/
def rX : ℝ := 93.369

/-- src/main.go `rY`: reference white Y. -/
def rY : ℝ := 100.000

/-- src/main.go `rZ`: reference white Z. -/
def rZ : ℝ := 98.636

/-- src/main.go: the local closure `Norm` of `XYZToLAB` (CIE Lab nonlinearity). -/
def NormLAB (n : ℝ) : ℝ :=
  if n > 0.008856 then n ^ ((1 : ℝ) / 3) else (7.787 * n) + (16.0 / 116.0)

/-- src/main.go `XYZToLAB`: divide by the reference white, apply the
nonlinearity, and combine into L, A, B. -/
def XYZToLAB (c : XYZ) : LAB :=
  let vX := NormLAB (c.X / rX)
  let vY := NormLAB (c.Y / rY)
  let vZ := NormLAB (c.Z / rZ)
  { L := 116 * vY - 16
    A := 500 * (vX - vY)
    B := 200 * (vY - vZ) }

/-- src/main.go `wL`: CIE94 lightness weighting factor. -/
def wL : ℝ := 1.0

/-- src/main.go `wC`: CIE94 chroma weighting factor. -/
def wC : ℝ := 1.0

/-- src/main.go `wH`: CIE94 hue weighting factor. -/
def wH : ℝ := 1.0

/-- src/main.go `CIE94Diff`: the CIE94 delta-E between two LAB colors.
The Go code mutates `xDH` (clamp) and `xDL`, `xDC`, `xDH` (normalization)
in place; each reassignment is modelled as a fresh binding. -/
def CIE94Diff (c1 c2 : LAB) : ℝ :=
  let xC1 := Real.sqrt (c1.A * c1.A + c1.B * c1.B)
  let xC2 := Real.sqrt (c2.A * c2.A + c2.B * c2.B)
  let xDL := c2.L - c1.L
  let xDC := xC2 - xC1
  let xDE := Real.sqrt ((c1.L - c2.L) * (c1.L - c2.L) +
    (c1.A - c2.A) * (c1.A - c2.A) +
    (c1.B - c2.B) * (c1.B - c2.B))
  let xDH0 := (xDE * xDE) - (xDL * xDL) - (xDC * xDC)
  let xDH1 := if xDH0 > 0 then Real.sqrt xDH0 else 0
  let xSC := 1 + (0.045 * xC1)
  let xSH := 1 + (0.015 * xC1)
  let xDL1 := xDL / wL
  let xDC1 := xDC / (wC * xSC)
  let xDH2 := xDH1 / (wH * xSH)
  Real.sqrt (xDL1 * xDL1 + xDC1 * xDC1 + xDH2 * xDH2)

/-- src/main.go `type LanguageColor struct`: a named LAB color. -/
structure LanguageColor where
  Name : String
  Color : LAB

/-- src/main.go `type LanguageColorDiff struct`: another language's name
with the difference to it. -/
structure LanguageColorDiff where
  Name : String
  Diff : ℝ

/-- src/main.go lines 56–66: convert the name→hex map to a list of LAB
colors, skipping (`continue`) every entry whose hex color fails to parse. -/
def toLAB (languages : List (String × String)) : List LanguageColor :=
  languages.filterMap fun p =>
    match HexToRGB p.2 with
    | (rgb, none) => some ⟨p.1, XYZToLAB (RGBToXYZ rgb)⟩
    | (_, some _) => none

/-- Ordering on difference entries used to state sortedness: the reflexive
closure of the `sort.Slice` comparison `diffs[i].Diff < diffs[j].Diff`. -/
def diffLE (a b : LanguageColorDiff) : Prop := a.Diff ≤ b.Diff

instance : DecidableRel diffLE := fun a b =>
  inferInstanceAs (Decidable (a.Diff ≤ b.Diff))

instance : IsTotal LanguageColorDiff diffLE := ⟨fun a b => le_total a.Diff b.Diff⟩

instance : IsTrans LanguageColorDiff diffLE := ⟨fun _ _ _ => le_trans⟩

/-- src/main.go lines 72–79: one language's unsorted difference list —
every other entry of `tfc` whose name differs, with the CIE94 difference
from this language's color. -/
def diffsFor (tfc : List LanguageColor) (lang : LanguageColor) :
    List LanguageColorDiff :=
  (tfc.filter fun p => p.Name ≠ lang.Name).map
    fun p => ⟨p.Name, CIE94Diff lang.Color p.Color⟩

/-- src/main.go lines 68–86: the per-language sorted difference lists
(`tfcd`).  `sort.Slice` with comparison `Diff <` is modelled by
`List.insertionSort` on `diffLE`: both produce a permutation that is
nondecreasing in `Diff`, and tie order is not part of the contract. -/
def rank (tfc : List LanguageColor) : List (String × List LanguageColorDiff) :=
  tfc.map fun lang => (lang.Name, List.insertionSort diffLE (diffsFor tfc lang))

/-- Go map read `tfcd[lang]`: first binding, or the zero value `nil`. -/
def lookupDiffs (tfcd : List (String × List LanguageColorDiff)) (n : String) :
    List LanguageColorDiff :=
  (tfcd.lookup n).getD []

/-- src/main.go lines 138–144: the `filtered` loop — walk the sorted list
and `break` at the first entry with `Diff >= diffThreshold`. -/
def filterDiffs (t : ℝ) : List LanguageColorDiff → List LanguageColorDiff
  | [] => []
  | d :: rest => if d.Diff ≥ t then [] else d :: filterDiffs t rest

/-- src/main.go lines 135–147: the names that actually appear in the
rendered report — those requested names whose filtered list is nonempty
(`if len(filtered) == 0 { continue }`). -/
def reportNames (langs : List String)
    (tfcd : List (String × List LanguageColorDiff)) (t : ℝ) : List String :=
  langs.filter fun lang => !(filterDiffs t (lookupDiffs tfcd lang)).isEmpty

/-- Modelled from the spec (§4.2, claim C3): the CIE94 formula exactly as
the specification words it, with kL = kC = kH = 1. -/
def cie94_spec (c1 c2 : LAB) : ℝ :=
  let kL : ℝ := 1
  let kC : ℝ := 1
  let kH : ℝ := 1
  let chroma1 := Real.sqrt (c1.A ^ 2 + c1.B ^ 2)
  let chroma2 := Real.sqrt (c2.A ^ 2 + c2.B ^ 2)
  let dL := c2.L - c1.L
  let dC := chroma2 - chroma1
  let dE := Real.sqrt ((c1.L - c2.L) ^ 2 + (c1.A - c2.A) ^ 2 + (c1.B - c2.B) ^ 2)
  let dH2 := dE ^ 2 - dL ^ 2 - dC ^ 2
  let dH := if dH2 > 0 then Real.sqrt dH2 else 0
  let SC := 1 + 0.045 * chroma1
  let SH := 1 + 0.015 * chroma1
  Real.sqrt ((dL / kL) ^ 2 + (dC / (kC * SC)) ^ 2 + (dH / (kH * SH)) ^ 2)

/-- Modelled from the spec (§4.1, claim C4): per-channel sRGB inverse gamma.
-/
def srgbInverseGamma (n : ℝ) : ℝ :=
  if n > 0.04045 then ((n + 0.055) / 1.055) ^ (2.4 : ℝ) else n / 12.92

/-- Modelled from the spec (§4.1, claim C4): `rgbToXYZ` as the spec words
it — normalize each channel, gamma-expand, scale by 100, apply the matrix
rows (0.4124, 0.3576, 0.1805), (0.2126, 0.7152, 0.0722),
(0.0193, 0.1192, 0.9505). -/
def rgbToXYZ_spec (c : RGB) : XYZ :=
  let R := srgbInverseGamma ((c.R : ℝ) / 255) * 100
  let G := srgbInverseGamma ((c.G : ℝ) / 255) * 100
  let B := srgbInverseGamma ((c.B : ℝ) / 255) * 100
  { X := 0.4124 * R + 0.3576 * G + 0.1805 * B
    Y := 0.2126 * R + 0.7152 * G + 0.0722 * B
    Z := 0.0193 * R + 0.1192 * G + 0.9505 * B }

/-- Modelled from the spec (§4.1, claim C5): the CIE Lab nonlinearity `f`. -/
def labF (n : ℝ) : ℝ :=
  if n > 0.008856 then n ^ ((1 : ℝ) / 3) else 7.787 * n + 16 / 116

/-- Modelled from the spec (§4.1, claim C5): `xyzToLAB` as the spec words
it, with reference white X0 = 93.369, Y0 = 100.000, Z0 = 98.636. -/
def xyzToLAB_spec (c : XYZ) : LAB :=
  let X0 : ℝ := 93.369
  let Y0 : ℝ := 100.000
  let Z0 : ℝ := 98.636
  { L := 116 * labF (c.Y / Y0) - 16
    A := 500 * (labF (c.X / X0) - labF (c.Y / Y0))
    B := 200 * (labF (c.Y / Y0) - labF (c.Z / Z0)) }

end

/-- A decoded byte list is half as long as the input digit list. -/
theorem decodeHex_length : ∀ l b, decodeHex l = some b → 2 * b.length = l.length
  | [], b => by
    intro h
    simp only [decodeHex, Option.some.injEq] at h
    subst h
    rfl
  | [c], b => by
    intro h
    simp [decodeHex] at h
  | c1 :: c2 :: rest, b => by
    intro h
    cases h1 : hexDigit? c1 with
    | none => simp [decodeHex, h1] at h
    | some hi =>
      cases h2 : hexDigit? c2 with
      | none => simp [decodeHex, h1, h2] at h
      | some lo =>
        simp only [decodeHex, h1, h2, Option.map_eq_some'] at h
        obtain ⟨r, hr, rfl⟩ := h
        have ih := decodeHex_length rest r hr
        simp only [List.length_cons]
        omega

/-- `decodeHex` succeeds exactly on even-length lists of hex digits. -/
theorem decodeHex_isSome_iff :
    ∀ l : List Char, (decodeHex l).isSome ↔
      l.length % 2 = 0 ∧ ∀ c ∈ l, (hexDigit? c).isSome
  | [] => by simp [decodeHex]
  | [c] => by simp [decodeHex]
  | c1 :: c2 :: rest => by
    have ih := decodeHex_isSome_iff rest
    cases h1 : hexDigit? c1 <;> cases h2 : hexDigit? c2 <;>
      simp_all [decodeHex, h1, h2, Nat.add_mod_right]
    omega

/-- On every error path, `HexToRGB` returns the zero value `RGB{}`. -/
theorem HexToRGB_error_zero (s : String) (e : HexError)
    (h : (HexToRGB s).2 = some e) : (HexToRGB s).1 = ⟨0, 0, 0⟩ := by
  unfold HexToRGB at h ⊢
  split at h
  · next hc => rw [if_pos hc]
  · next hc =>
    rw [if_neg hc]
    split at h
    · rfl
    · simp at h
    · rfl

/-- A 6-digit hex string decodes to exactly 3 bytes. -/
theorem decodeHex_of_len6 (t : List Char) (h6 : t.length = 6)
    (hall : ∀ c ∈ t, (hexDigit? c).isSome) :
    ∃ x y z, decodeHex t = some [x, y, z] := by
  have h : (decodeHex t).isSome := (decodeHex_isSome_iff t).2 ⟨by omega, hall⟩
  obtain ⟨b, hb⟩ := Option.isSome_iff_exists.mp h
  have hlen := decodeHex_length _ _ hb
  rw [h6] at hlen
  have hb3 : b.length = 3 := by omega
  obtain ⟨x, y, z, rfl⟩ := List.length_eq_three.mp hb3
  exact ⟨x, y, z, hb⟩

/-- Successful path of `HexToRGB`. -/
theorem HexToRGB_ok_eq (s : String) (h7 : s.length = 7) (x y z : Nat)
    (hd : decodeHex (s.data.drop 1) = some [x, y, z]) :
    HexToRGB s = (⟨x, y, z⟩, none) := by
  unfold HexToRGB
  rw [if_neg (by simp [h7]), hd]

/-- Full characterization of `HexToRGB`'s outcome: success iff the input has
length 7 and its last six characters are hex digits; `invalidFormat` iff the
length is not 7; `invalidHex` iff the length is 7 but some of the last six
characters is not a hex digit; the decoded-length error never occurs. -/
theorem HexToRGB_cases (s : String) :
    ((HexToRGB s).2 = none ↔
        s.length = 7 ∧ ∀ c ∈ s.data.drop 1, (hexDigit? c).isSome) ∧
    ((HexToRGB s).2 = some HexError.invalidFormat ↔ s.length ≠ 7) ∧
    ((HexToRGB s).2 = some HexError.invalidHex ↔
        s.length = 7 ∧ ¬ ∀ c ∈ s.data.drop 1, (hexDigit? c).isSome) ∧
    (HexToRGB s).2 ≠ some HexError.invalidLength := by
  by_cases h7 : s.length = 7
  · have hlen : (s.data.drop 1).length = 6 := by
      have h : s.data.length = 7 := h7
      simp [h]
    by_cases hall : ∀ c ∈ s.data.drop 1, (hexDigit? c).isSome
    · obtain ⟨x, y, z, hd⟩ := decodeHex_of_len6 _ hlen hall
      unfold HexToRGB
      rw [if_neg (by simp [h7]), hd]
      rw [List.drop_one] at hall
      simp [h7]
      exact ⟨hall, fun c hc => Option.ne_none_iff_isSome.mpr (hall c hc)⟩
    · have hd : decodeHex (s.data.drop 1) = none := by
        cases hd : decodeHex (s.data.drop 1) with
        | none => rfl
        | some b =>
          exact absurd
            ((decodeHex_isSome_iff _).mp (by rw [hd]; rfl)).2 hall
      unfold HexToRGB
      rw [if_neg (by simp [h7]), hd]
      rw [List.drop_one] at hall
      push_neg at hall
      obtain ⟨c, hc, hcno⟩ := hall
      simp [h7]
      exact ⟨c, hc, Option.not_isSome_iff_eq_none.mp (by simp [hcno])⟩
  · unfold HexToRGB
    rw [if_pos h7]
    simp [h7]

/-- The names in a language's difference list are exactly the other
languages' names, in input order. -/
theorem diffsFor_names (tfc : List LanguageColor) (lang : LanguageColor) :
    (diffsFor tfc lang).map LanguageColorDiff.Name =
      (tfc.map LanguageColor.Name).filter (fun m => m ≠ lang.Name) := by
  induction tfc with
  | nil => rfl
  | cons p rest ih =>
    by_cases h : p.Name = lang.Name <;>
      simp [diffsFor, List.filter_cons, h] at ih ⊢ <;> exact ih

/-- In a list of pairs with `Nodup` keys, a key determines its value. -/
theorem eq_of_mem_nodup_fst {α β : Type} :
    ∀ (l : List (α × β)), (l.map Prod.fst).Nodup →
      ∀ (a : α) (b b' : β), (a, b) ∈ l → (a, b') ∈ l → b = b'
  | [], _, a, b, b', h1, _ => by simp at h1
  | p :: rest, hnd, a, b, b', h1, h2 => by
    simp only [List.map_cons, List.nodup_cons] at hnd
    rcases List.mem_cons.mp h1 with heq1 | h1'
    · rcases List.mem_cons.mp h2 with heq2 | h2'
      · rw [← heq1] at heq2
        exact ((Prod.ext_iff.mp heq2).2).symm
      · exact absurd (List.mem_map.mpr ⟨(a, b'), h2', by rw [← heq1]⟩) hnd.1
    · rcases List.mem_cons.mp h2 with heq2 | h2'
      · exact absurd (List.mem_map.mpr ⟨(a, b), h1', by rw [← heq2]⟩) hnd.1
      · exact eq_of_mem_nodup_fst rest hnd.2 a b b' h1' h2'

/-- The keys of the ranking are the names of the converted colors. -/
theorem rank_keys (tfc : List LanguageColor) :
    (rank tfc).map Prod.fst = tfc.map LanguageColor.Name := by
  simp [rank, List.map_map]

/-- Membership in the ranking, unfolded. -/
theorem mem_rank_iff (tfc : List LanguageColor) (m : String)
    (l : List LanguageColorDiff) :
    (m, l) ∈ rank tfc ↔ ∃ lang ∈ tfc, lang.Name = m ∧
      l = List.insertionSort diffLE (diffsFor tfc lang) := by
  simp only [rank, List.mem_map, Prod.mk.injEq]
  constructor
  · rintro ⟨lang, hmem, h1, h2⟩
    exact ⟨lang, hmem, h1, h2.symm⟩
  · rintro ⟨lang, hmem, h1, h2⟩
    exact ⟨lang, hmem, h1, h2.symm⟩

/-- Every name occurring in the converted color list comes from an input
entry whose hex color parses. -/
theorem mem_toLAB_names (languages : List (String × String)) (m : String) :
    m ∈ (toLAB languages).map LanguageColor.Name →
      ∃ h, (m, h) ∈ languages ∧ (HexToRGB h).2 = none := by
  intro hm
  obtain ⟨c, hc, hcname⟩ := List.mem_map.mp hm
  obtain ⟨⟨n, hx⟩, hmem, heq⟩ := List.mem_filterMap.mp hc
  rcases herr : HexToRGB hx with ⟨rgb, err⟩
  rw [herr] at heq
  cases err with
  | none =>
    simp only [Option.some.injEq] at heq
    have hnm : n = m := by rw [← heq] at hcname; exact hcname
    refine ⟨hx, ?_, by rw [herr]⟩
    rw [← hnm]
    exact hmem
  | some e => simp at heq

/-- Every name in a ranked difference list is a converted color's name. -/
theorem mem_rank_entry_names (tfc : List LanguageColor) (m : String)
    (l : List LanguageColorDiff) (d : LanguageColorDiff)
    (hml : (m, l) ∈ rank tfc) (hd : d ∈ l) :
    d.Name ∈ tfc.map LanguageColor.Name := by
  obtain ⟨lang, hmem, _, rfl⟩ := (mem_rank_iff tfc m l).mp hml
  have hd' : d ∈ diffsFor tfc lang :=
    (List.mem_insertionSort diffLE).mp hd
  have : d.Name ∈ (diffsFor tfc lang).map LanguageColorDiff.Name :=
    List.mem_map.mpr ⟨d, hd', rfl⟩
  rw [diffsFor_names] at this
  exact List.mem_of_mem_filter this

/-- Every entry of the filtered list is below the threshold. -/
theorem filterDiffs_lt (t : ℝ) :
    ∀ l, ∀ d ∈ filterDiffs t l, d.Diff < t
  | [], d => by simp [filterDiffs]
  | x :: rest, d => by
    simp only [filterDiffs]
    split
    · simp
    · next hge =>
      intro hd
      rcases List.mem_cons.mp hd with rfl | hd'
      · exact lt_of_not_ge hge
      · exact filterDiffs_lt t rest d hd'

/-- The filtered list is an initial segment of the input. -/
theorem filterDiffs_append (t : ℝ) :
    ∀ l, ∃ q, filterDiffs t l ++ q = l
  | [] => ⟨[], rfl⟩
  | x :: rest => by
    simp only [filterDiffs]
    split
    · exact ⟨x :: rest, rfl⟩
    · obtain ⟨q, hq⟩ := filterDiffs_append t rest
      exact ⟨q, by simp [hq]⟩

/-- No longer initial segment consists only of below-threshold entries. -/
theorem filterDiffs_longest (t : ℝ) :
    ∀ l p, (∃ q, p ++ q = l) → (∀ d ∈ p, d.Diff < t) →
      p.length ≤ (filterDiffs t l).length
  | l, [] => by simp
  | l, x :: p' => by
    rintro ⟨q, hq⟩ hlt
    cases l with
    | nil => simp at hq
    | cons y rest =>
      simp only [List.cons_append, List.cons.injEq] at hq
      obtain ⟨rfl, hq'⟩ := hq
      have hx : x.Diff < t := hlt x (List.mem_cons_self x p')
      simp only [filterDiffs, if_neg (not_le.mpr hx)]
      simp only [List.length_cons, Nat.add_le_add_iff_right]
      exact filterDiffs_longest t rest p' ⟨q, hq'⟩
        (fun d hd => hlt d (List.mem_cons_of_mem x hd))

/-- A name appears in the rendered report iff it was requested and its
filtered list is nonempty. -/
theorem mem_reportNames (langs : List String)
    (tfcd : List (String × List LanguageColorDiff)) (t : ℝ) (n : String) :
    n ∈ reportNames langs tfcd t ↔
      n ∈ langs ∧ filterDiffs t (lookupDiffs tfcd n) ≠ [] := by
  simp [reportNames, List.mem_filter, List.isEmpty_iff]

/-- The code's `Norm` closure in `XYZToLAB` is the spec's `f`. -/
theorem normLAB_eq_labF : NormLAB = labF := by
  funext n
  simp only [NormLAB, labF]
  norm_num

/-- The code's `Norm` closure in `RGBToXYZ` is the spec's inverse gamma. -/
theorem normRGB_eq_srgbInverseGamma : NormRGB = srgbInverseGamma := rfl

/-- C4: `RGBToXYZ` is total (it is a function on all RGB values) and
computes exactly the conversion the spec describes: per-channel
normalization by 255, sRGB gamma expansion, scaling by 100, and the fixed
matrix with rows (0.4124, 0.3576, 0.1805), (0.2126, 0.7152, 0.0722),
(0.0193, 0.1192, 0.9505). -/
theorem rgbToXYZ_matches_spec (c : RGB) : RGBToXYZ c = rgbToXYZ_spec c := by
  simp only [RGBToXYZ, rgbToXYZ_spec, NormRGB, srgbInverseGamma, XYZ.mk.injEq]
  refine ⟨?_, ?_, ?_⟩ <;> ring

/-- C5: `XYZToLAB` is total and computes exactly the conversion the spec
describes: division by the reference white X0 = 93.369, Y0 = 100.000,
Z0 = 98.636, the CIE Lab nonlinearity per axis, and
L = 116·f(Y/Y0) − 16, A = 500·(f(X/X0) − f(Y/Y0)),
B = 200·(f(Y/Y0) − f(Z/Z0)). -/
theorem xyzToLAB_matches_spec (c : XYZ) : XYZToLAB c = xyzToLAB_spec c := by
  simp only [XYZToLAB, xyzToLAB_spec, normLAB_eq_labF, rX, rY, rZ]

/-- C3: `CIE94Diff` computes exactly the CIE94 delta-E the spec describes
with kL = kC = kH = 1: chroma from each argument, ΔL, ΔC, the Euclidean ΔE,
the clamped ΔH, SC and SH from the first argument's chroma only, and the
final weighted square root. -/
theorem cie94Diff_matches_spec (c1 c2 : LAB) :
    CIE94Diff c1 c2 = cie94_spec c1 c2 := by
  simp only [CIE94Diff, cie94_spec, wL, wC, wH]
  norm_num
  ring_nf

/-- C8: `CIE94Diff` is reflexive at zero — the difference between a LAB
color and itself is exactly 0. -/
theorem cie94Diff_self (c : LAB) : CIE94Diff c c = 0 := by
  simp only [CIE94Diff]
  norm_num [sub_self, Real.sqrt_zero]

/-- C9: `CIE94Diff` is non-negative on all (real, hence finite) LAB inputs,
and being a total function it has no failure mode. -/
theorem cie94Diff_nonneg (c1 c2 : LAB) : 0 ≤ CIE94Diff c1 c2 := by
  simp only [CIE94Diff]
  exact Real.sqrt_nonneg _

/-- C1 counterexample: the 7-character input "0FF0000" does not start with
`#`, yet `HexToRGB` accepts it and returns RGB{255,0,0} with no error,
refuting "any 7-character input not starting with `#` is rejected". -/
theorem hexToRGB_accepts_nonhash :
    "0FF0000".length = 7 ∧ "0FF0000".data.head? = some '0' ∧
      ('0' : Char) ≠ '#' ∧
      HexToRGB "0FF0000" = (⟨255, 0, 0⟩, none) := by
  refine ⟨rfl, rfl, by decide, ?_⟩
  rfl

/-- C1 (amended): `HexToRGB` succeeds exactly on 7-character strings whose
last six characters are hexadecimal digits — the first character is never
inspected, so it need not be `#`; it fails with the invalid-format error
iff the length is not 7, with the invalid-hex error iff the length is 7
but the tail is not valid hexadecimal, and a 7-character tail always
decodes to exactly 3 bytes so the decoded-length error never occurs. -/
theorem hexToRGB_spec_amended (s : String) :
    ((HexToRGB s).2 = none ↔
        s.length = 7 ∧ ∀ c ∈ s.data.drop 1, (hexDigit? c).isSome) ∧
    ((HexToRGB s).2 = some HexError.invalidFormat ↔ s.length ≠ 7) ∧
    ((HexToRGB s).2 = some HexError.invalidHex ↔
        s.length = 7 ∧ ¬ ∀ c ∈ s.data.drop 1, (hexDigit? c).isSome) ∧
    (HexToRGB s).2 ≠ some HexError.invalidLength :=
  HexToRGB_cases s

/-- C10: `HexToRGB` never inspects the first character — two 7-character
strings differing only in their first character parse identically, any
7-character string with a valid hex tail is accepted with the RGB decoded
from that tail (in particular "0FF0000" yields RGB{255,0,0}), and every
failure path returns the zero value RGB{0,0,0}. -/
theorem hexToRGB_ignores_first_char :
    (∀ (c c' : Char) (t : List Char),
        HexToRGB (String.mk (c :: t)) = HexToRGB (String.mk (c' :: t))) ∧
    (∀ (c : Char) (t : List Char), t.length = 6 →
        (∀ ch ∈ t, (hexDigit? ch).isSome) →
        ∃ x y z, decodeHex t = some [x, y, z] ∧
          HexToRGB (String.mk (c :: t)) = (⟨x, y, z⟩, none)) ∧
    HexToRGB "0FF0000" = (⟨255, 0, 0⟩, none) ∧
    (∀ s e, (HexToRGB s).2 = some e → (HexToRGB s).1 = ⟨0, 0, 0⟩) := by
  refine ⟨?_, ?_, rfl, HexToRGB_error_zero⟩
  · intro c c' t
    have hl : ∀ a : Char, (String.mk (a :: t)).length = t.length + 1 :=
      fun _ => rfl
    have hdrop : ∀ a : Char, (String.mk (a :: t)).data.drop 1 = t :=
      fun _ => rfl
    unfold HexToRGB
    rw [hl, hl, hdrop, hdrop]
  · intro c t h6 hall
    obtain ⟨x, y, z, hd⟩ := decodeHex_of_len6 t h6 hall
    refine ⟨x, y, z, hd, HexToRGB_ok_eq _ ?_ x y z ?_⟩
    · show (c :: t).length = 7
      simp [h6]
    · show decodeHex ((c :: t).drop 1) = some [x, y, z]
      simpa using hd

/-- C2: entries whose hex color fails to parse are dropped before ranking
without aborting: every name with a valid hex color still receives a
ranking entry (computed over the valid entries only), and a name whose
color does not parse appears neither as a key of the ranking nor inside
any other name's difference list. -/
theorem pipeline_drops_invalid (languages : List (String × String))
    (hnd : (languages.map Prod.fst).Nodup) :
    (∀ n h rgb, (n, h) ∈ languages → HexToRGB h = (rgb, none) →
        ∃ l, (n, l) ∈ rank (toLAB languages)) ∧
    (∀ n h e, (n, h) ∈ languages → (HexToRGB h).2 = some e →
        (∀ l, (n, l) ∉ rank (toLAB languages)) ∧
        (∀ m l, (m, l) ∈ rank (toLAB languages) → ∀ d ∈ l, d.Name ≠ n)) := by
  constructor
  · intro n h rgb hmem herr
    have hlab : (⟨n, XYZToLAB (RGBToXYZ rgb)⟩ : LanguageColor) ∈
        toLAB languages := by
      refine List.mem_filterMap.mpr ⟨(n, h), hmem, ?_⟩
      simp [herr]
    exact ⟨_, List.mem_map.mpr ⟨⟨n, XYZToLAB (RGBToXYZ rgb)⟩, hlab, rfl⟩⟩
  · intro n h e hmem herr
    have hnot : n ∉ (toLAB languages).map LanguageColor.Name := by
      intro hn
      obtain ⟨h', hmem', herr'⟩ := mem_toLAB_names languages n hn
      have hh : h = h' := eq_of_mem_nodup_fst languages hnd n h h' hmem hmem'
      rw [← hh, herr] at herr'
      simp at herr'
    constructor
    · intro l hl
      have hk : n ∈ (rank (toLAB languages)).map Prod.fst :=
        List.mem_map.mpr ⟨(n, l), hl, rfl⟩
      rw [rank_keys] at hk
      exact hnot hk
    · intro m l hml d hd hdn
      exact hnot (hdn ▸ mem_rank_entry_names (toLAB languages) m l d hml hd)

/-- Witness for C2 at the spec's own example
`{"A": "#FF0000", "B": "notacolor"}`. -/
theorem pipeline_drops_invalid_witness :
    (([("A", "#FF0000"), ("B", "notacolor")] :
        List (String × String)).map Prod.fst).Nodup ∧
    ((∀ n h rgb,
        (n, h) ∈ ([("A", "#FF0000"), ("B", "notacolor")] :
          List (String × String)) →
        HexToRGB h = (rgb, none) →
        ∃ l, (n, l) ∈ rank (toLAB [("A", "#FF0000"), ("B", "notacolor")])) ∧
      (∀ n h e,
        (n, h) ∈ ([("A", "#FF0000"), ("B", "notacolor")] :
          List (String × String)) →
        (HexToRGB h).2 = some e →
        (∀ l, (n, l) ∉ rank (toLAB [("A", "#FF0000"), ("B", "notacolor")])) ∧
        (∀ m l,
          (m, l) ∈ rank (toLAB [("A", "#FF0000"), ("B", "notacolor")]) →
          ∀ d ∈ l, d.Name ≠ n))) :=
  ⟨by decide, pipeline_drops_invalid _ (by decide)⟩

/-- C6: for every uniquely-named input list and every language in it, the
ranking holds for that language a list with exactly one entry per other
name — itself excluded, no duplicates, no omissions — each entry carrying
the CIE94 difference of this language's color against the other's, and the
list is sorted ascending by difference (tie order unconstrained). -/
theorem rank_spec (tfc : List LanguageColor) (lang : LanguageColor)
    (hmem : lang ∈ tfc) (hnd : (tfc.map LanguageColor.Name).Nodup) :
    ∃ l, (lang.Name, l) ∈ rank tfc ∧
      List.Sorted diffLE l ∧
      l.Perm ((tfc.filter fun p => p.Name ≠ lang.Name).map
        fun p => ⟨p.Name, CIE94Diff lang.Color p.Color⟩) ∧
      (l.map LanguageColorDiff.Name).Perm
        ((tfc.map LanguageColor.Name).filter fun m => m ≠ lang.Name) ∧
      (l.map LanguageColorDiff.Name).Nodup := by
  refine ⟨List.insertionSort diffLE (diffsFor tfc lang), ?_, ?_, ?_, ?_, ?_⟩
  · exact List.mem_map.mpr ⟨lang, hmem, rfl⟩
  · exact List.sorted_insertionSort diffLE _
  · exact List.perm_insertionSort diffLE _
  · have hp := (List.perm_insertionSort diffLE
      (diffsFor tfc lang)).map LanguageColorDiff.Name
    rw [diffsFor_names] at hp
    exact hp
  · have hp := (List.perm_insertionSort diffLE
      (diffsFor tfc lang)).map LanguageColorDiff.Name
    rw [diffsFor_names] at hp
    exact hp.nodup_iff.mpr (hnd.filter _)

/-- Witness for C6 at a concrete two-language input. -/
theorem rank_spec_witness :
    ((⟨"A", ⟨0, 0, 0⟩⟩ : LanguageColor) ∈
        ([⟨"A", ⟨0, 0, 0⟩⟩, ⟨"B", ⟨50, 10, 10⟩⟩] : List LanguageColor) ∧
      (([⟨"A", ⟨0, 0, 0⟩⟩, ⟨"B", ⟨50, 10, 10⟩⟩] :
          List LanguageColor).map LanguageColor.Name).Nodup) ∧
    (∃ l, ((⟨"A", ⟨0, 0, 0⟩⟩ : LanguageColor).Name, l) ∈
        rank [⟨"A", ⟨0, 0, 0⟩⟩, ⟨"B", ⟨50, 10, 10⟩⟩] ∧
      List.Sorted diffLE l ∧
      l.Perm ((([⟨"A", ⟨0, 0, 0⟩⟩, ⟨"B", ⟨50, 10, 10⟩⟩] :
          List LanguageColor).filter
            fun p => p.Name ≠ (⟨"A", ⟨0, 0, 0⟩⟩ : LanguageColor).Name).map
        fun p => ⟨p.Name,
          CIE94Diff (⟨"A", ⟨0, 0, 0⟩⟩ : LanguageColor).Color p.Color⟩) ∧
      (l.map LanguageColorDiff.Name).Perm
        ((([⟨"A", ⟨0, 0, 0⟩⟩, ⟨"B", ⟨50, 10, 10⟩⟩] :
            List LanguageColor).map LanguageColor.Name).filter
          fun m => m ≠ (⟨"A", ⟨0, 0, 0⟩⟩ : LanguageColor).Name) ∧
      (l.map LanguageColorDiff.Name).Nodup) :=
  ⟨⟨by simp, by simp⟩, rank_spec _ _ (by simp) (by simp)⟩

/-- C7: for every difference list sorted ascending and every threshold, the
filtered list consists only of entries strictly below the threshold (an
entry equal to the threshold is excluded), is an initial segment of the
input, and no longer initial segment is all below the threshold — it is the
longest such prefix; and a name appears in the rendered report iff it was
requested and its filtered list is nonempty. -/
theorem filterDiffs_spec (l : List LanguageColorDiff) (t : ℝ)
    (_hs : List.Sorted diffLE l) :
    (∀ d ∈ filterDiffs t l, d.Diff < t) ∧
    (∃ q, filterDiffs t l ++ q = l) ∧
    (∀ p, (∃ q, p ++ q = l) → (∀ d ∈ p, d.Diff < t) →
        p.length ≤ (filterDiffs t l).length) ∧
    (∀ langs tfcd n, n ∈ reportNames langs tfcd t ↔
        n ∈ langs ∧ filterDiffs t (lookupDiffs tfcd n) ≠ []) :=
  ⟨filterDiffs_lt t l, filterDiffs_append t l,
    fun p hp hlt => filterDiffs_longest t l p hp hlt,
    fun langs tfcd n => mem_reportNames langs tfcd t n⟩

/-- Witness for C7 at a concrete sorted list and threshold 2. -/
theorem filterDiffs_spec_witness :
    List.Sorted diffLE [⟨"x", (1 : ℝ)⟩, ⟨"y", (2 : ℝ)⟩] ∧
    ((∀ d ∈ filterDiffs 2 ([⟨"x", 1⟩, ⟨"y", 2⟩] : List LanguageColorDiff),
        d.Diff < 2) ∧
      (∃ q, filterDiffs 2 ([⟨"x", 1⟩, ⟨"y", 2⟩] : List LanguageColorDiff) ++ q =
        [⟨"x", 1⟩, ⟨"y", 2⟩]) ∧
      (∀ p, (∃ q, p ++ q = ([⟨"x", 1⟩, ⟨"y", 2⟩] : List LanguageColorDiff)) →
        (∀ d ∈ p, d.Diff < 2) →
        p.length ≤
          (filterDiffs 2 ([⟨"x", 1⟩, ⟨"y", 2⟩] : List LanguageColorDiff)).length) ∧
      (∀ langs tfcd n, n ∈ reportNames langs tfcd 2 ↔
        n ∈ langs ∧ filterDiffs 2 (lookupDiffs tfcd n) ≠ [])) :=
  ⟨by norm_num [List.sorted_cons, diffLE],
    filterDiffs_spec _ 2 (by norm_num [List.sorted_cons, diffLE])⟩

end LinguistColor
